import Mathlib

/-!
Shallow embedding of the UMRS SELinux userland core (umrs-selinux,
mcs-setrans, kernel-files crates) together with proofs about its
security-context parsing, category-set dominance, setrans translation
loading, and provenance-checked kernel reads.

Rust strings are modelled as `List Char`; Rust machine integers (u16,
u32, u64) are modelled as `Nat` with explicit bounds where the width
matters (the `CategorySet` bitmap words carry a `< 2 ^ 64` invariant,
matching `[u64; 16]`).  Fallible Rust functions returning
`Result`/`io::Result` are modelled with `Except`; `nom` parsers, whose
errors are uniformly discarded by the callers embedded here, are
modelled with `Option`.
-/

namespace Umrs

/-- Kinds of `std::io::Error` distinguished by the embedded code
(`io::ErrorKind::InvalidData`, `io::ErrorKind::PermissionDenied`, and
everything else collapsed to `OtherErr`). -/
inductive IoErr where
  | InvalidData
  | PermissionDenied
  | OtherErr
deriving DecidableEq, Repr

/-! ## Rust string primitives on `List Char` -/

/-- Rust `str::split(sep)` for a one-character separator: splits on every
occurrence, keeping empty segments, so `"".split` is `[""]` and
`"a:".split(':')` is `["a", ""]`. -/
def splitChar (sep : Char) : List Char → List (List Char)
  | [] => [[]]
  | c :: rest =>
    let r := splitChar sep rest
    if c = sep then [] :: r
    else
      match r with
      | h :: t => (c :: h) :: t
      | [] => [[c]]

/-- `nom::bytes::complete::take_until(sep)`: returns the input before the
first occurrence of `sep` together with the rest of the input starting at
`sep` (the separator is not consumed); fails when `sep` is absent. -/
def takeUntil (sep : Char) : List Char → Option (List Char × List Char)
  | [] => none
  | c :: rest =>
    if c = sep then some ([], c :: rest)
    else (takeUntil sep rest).map fun p => (c :: p.1, p.2)

/-- Rust `str::split_once(sep)`: the segments before and after the first
occurrence of `sep`, the separator itself dropped. -/
def splitOnce (sep : Char) (l : List Char) : Option (List Char × List Char) :=
  match takeUntil sep l with
  | some (a, _ :: b) => some (a, b)
  | _ => none

/-- Rust `str::trim`. -/
def rustTrim (l : List Char) : List Char :=
  ((l.dropWhile Char.isWhitespace).reverse.dropWhile Char.isWhitespace).reverse

/-- Helper for `rustParseNat`: consumes decimal digits, accumulating the
value and failing on a non-digit or when the accumulated value exceeds
`bound` (Rust integer-parse overflow). -/
def parseDigitsAux (bound : Nat) (acc : Nat) : List Char → Option Nat
  | [] => some acc
  | c :: rest =>
    if c.isDigit then
      let acc2 := acc * 10 + (c.toNat - 48)
      if acc2 > bound then none else parseDigitsAux bound acc2 rest
    else none

/-- Rust `str::parse` for an unsigned integer type with maximum value
`bound`: an optional leading plus sign, then one or more decimal digits,
rejecting empty input and overflow. -/
def rustParseNat (bound : Nat) (s : List Char) : Option Nat :=
  match s with
  | [] => none
  | '+' :: rest => if rest = [] then none else parseDigitsAux bound 0 rest
  | _ => parseDigitsAux bound 0 s

/-- Rust `str::parse::<u16>`. -/
def rustParseU16 (s : List Char) : Option Nat := rustParseNat 65535 s

/-- Rust `str::parse::<u32>`. -/
def rustParseU32 (s : List Char) : Option Nat := rustParseNat 4294967295 s

/-! ## Category / CategorySet (umrs-selinux/src/category.rs) -/

/-- `MAX_CATEGORY` from category.rs. -/
def MAX_CATEGORY : Nat := 1023

/-- Errors of category construction and parsing (`CategoryError`). -/
inductive CategoryError where
  | OutOfRange (id : Nat)
  | InvalidFormat (raw : List Char)
deriving DecidableEq

/-- `Category`: a validated SELinux MLS category id `c0`–`c1023`,
modelled as `Fin 1024` (the source wraps a `u16` validated to be at
most `MAX_CATEGORY`). -/
def Category : Type := Fin 1024
deriving DecidableEq

/-- `Category::new(id)`: fails with `OutOfRange` when `id > 1023`. -/
def Category.new (id : Nat) : Except CategoryError Category :=
  if h : id > MAX_CATEGORY then .error (.OutOfRange id)
  else .ok ⟨id, by simp [MAX_CATEGORY] at h; omega⟩

/-- `Category::id`. -/
def Category.id (c : Category) : Nat := Fin.val c

/-- `Category::from_str`: a mandatory `c` followed by a `u16` numeral,
then `Category::new`. -/
def Category.fromStr (s : List Char) : Except CategoryError Category :=
  match s with
  | 'c' :: num =>
    match rustParseU16 num with
    | some id => Category.new id
    | none => .error (.InvalidFormat s)
  | _ => .error (.InvalidFormat s)

/-- `CategorySet`: the dense 1024-bit bitmap `bits: [u64; 16]`.  Each
word is a `Nat` constrained below `2 ^ 64`, matching `u64`. -/
structure CategorySet where
  bits : Fin 16 → Nat
  wf : ∀ i, bits i < 2 ^ 64

instance : DecidableEq CategorySet := fun a b =>
  decidable_of_iff (a.bits = b.bits)
    ⟨fun h => by cases a; cases b; simpa using h,
     fun h => congrArg CategorySet.bits h⟩

/-- `CategorySet::new()`: the empty set, all words zero. -/
def CategorySet.empty : CategorySet :=
  ⟨fun _ => 0, fun _ => by norm_num⟩

/-- `CategorySet::full()`: all words `u64::MAX`. -/
def CategorySet.full : CategorySet :=
  ⟨fun _ => 2 ^ 64 - 1, fun _ => by norm_num⟩

/-- The word index of a category (`id / 64`), as in `CategorySet::index`. -/
def catWord (c : Category) : Fin 16 :=
  ⟨Fin.val c / 64, Nat.div_lt_of_lt_mul (Fin.isLt c)⟩

/-- The bit index of a category inside its word (`id % 64`). -/
def catBit (c : Category) : Nat := Fin.val c % 64

/-- `CategorySet::insert`: `bits[word] |= 1 << bit`. -/
def CategorySet.insert (s : CategorySet) (c : Category) : CategorySet :=
  ⟨fun j => if j = catWord c then s.bits j ||| (1 <<< catBit c) else s.bits j,
   by
     intro i
     by_cases h : i = catWord c
     · simp only [h, if_pos rfl]
       refine Nat.or_lt_two_pow (s.wf _) ?_
       rw [Nat.shiftLeft_eq, one_mul]
       exact Nat.pow_lt_pow_right (by norm_num) (Nat.mod_lt _ (by norm_num))
     · simpa [h] using s.wf i⟩

/-- `CategorySet::remove`: `bits[word] &= !(1 << bit)`.  The complement
of a mask within a `u64` is modelled as XOR against `2 ^ 64 - 1`. -/
def CategorySet.remove (s : CategorySet) (c : Category) : CategorySet :=
  ⟨fun j => if j = catWord c then s.bits j &&& ((2 ^ 64 - 1) ^^^ (1 <<< catBit c)) else s.bits j,
   by
     intro i
     by_cases h : i = catWord c
     · simp only [h, if_pos rfl]
       exact lt_of_le_of_lt Nat.and_le_left (s.wf _)
     · simpa [h] using s.wf i⟩

/-- `CategorySet::contains`: `(bits[word] & (1 << bit)) != 0`. -/
def CategorySet.containsCat (s : CategorySet) (c : Category) : Bool :=
  s.bits (catWord c) &&& (1 <<< catBit c) ≠ 0

/-- `CategorySet::is_empty`: all words zero. -/
def CategorySet.isEmptySet (s : CategorySet) : Bool :=
  (List.finRange 16).all fun i => s.bits i = 0

/-- `CategorySet::dominates`: word-wise `(self & other) == other` over
all 16 words (the source loop returns `false` at the first word where
the equation fails). -/
def CategorySet.dominates (s other : CategorySet) : Bool :=
  (List.finRange 16).all fun i => s.bits i &&& other.bits i = other.bits i

/-- `CategorySet::union`: word-wise OR. -/
def CategorySet.union (s other : CategorySet) : CategorySet :=
  ⟨fun i => s.bits i ||| other.bits i,
   fun i => Nat.or_lt_two_pow (s.wf i) (other.wf i)⟩

/-- `CategorySet::intersection`: word-wise AND. -/
def CategorySet.intersection (s other : CategorySet) : CategorySet :=
  ⟨fun i => s.bits i &&& other.bits i,
   fun i => lt_of_le_of_lt Nat.and_le_left (s.wf i)⟩

/-- `CategorySet::iter()`: the contained categories in ascending id
order, produced by filtering ids `0..=1023` on membership. -/
def CategorySet.iterList (s : CategorySet) : List Category :=
  (List.finRange 1024).filter fun c => s.containsCat c

/-- `CategorySet::from_str`: comma-separated single categories, each
trimmed and parsed by `Category::from_str` (no dotted-range support in
this parser). -/
def CategorySet.fromStr (s : List Char) : Except CategoryError CategorySet :=
  (splitChar ',' s).foldlM
    (fun set part => do
      let cat ← Category.fromStr (rustTrim part)
      pure (set.insert cat))
    CategorySet.empty

/-! ## SensitivityLevel (umrs-selinux/src/sensitivity.rs) -/

/-- `MAX_SENSITIVITY` from sensitivity.rs. -/
def MAX_SENSITIVITY : Nat := 15

/-- `SensitivityError`.  The source variant named after an invalid
leading character (expected `s`) is rendered here as
`InvalidPrefixChar`; `InvalidFormatS` and `OutOfRangeS` carry the same
payloads as the source variants. -/
inductive SensitivityError where
  | Empty
  | InvalidPrefixChar
  | InvalidFormatS (raw : List Char)
  | OutOfRangeS (val : Nat)
deriving DecidableEq

/-- `SensitivityLevel`: a validated MLS sensitivity (`u16` in the
source, constructed only through `new`). -/
structure SensitivityLevel where
  val : Nat
deriving DecidableEq

/-- `SensitivityLevel::new(level)`: fails when `level > MAX_SENSITIVITY`. -/
def SensitivityLevel.new (level : Nat) : Except SensitivityError SensitivityLevel :=
  if level > MAX_SENSITIVITY then .error (.OutOfRangeS level)
  else .ok ⟨level⟩

/-- `SensitivityLevel::from_str`: empty input is `Empty`; an input not
starting with lowercase `s` is the generic bad-leading-character error;
otherwise the remainder must parse as a bounded `u16`. -/
def SensitivityLevel.fromStr (s : List Char) : Except SensitivityError SensitivityLevel :=
  match s with
  | [] => .error .Empty
  | c :: rest =>
    if c ≠ 's' then .error .InvalidPrefixChar
    else
      match rustParseU16 rest with
      | some v => SensitivityLevel.new v
      | none => .error (.InvalidFormatS s)

/-! ## SelinuxUser / SelinuxRole / SelinuxType (user.rs, role.rs, type_id.rs)

The three validators are textually identical in the source except for
the mandatory suffix (`_u`, `_r`, `_t`) and the error type name; they
are embedded once as `validateIdent`, parameterized by the suffix
letter, with a shared error type. -/

/-- The shared error taxonomy of `UserError`/`RoleError`/`TypeError`. -/
inductive IdentError where
  | Empty
  | TooLong (len : Nat)
  | InvalidCharacter (c : Char)
  | InvalidSuffix
  | InvalidStem
deriving DecidableEq

/-- `validate_user`/`validate_role`/`validate_type`: nonempty, byte
length between 3 and 255, characters restricted to ASCII lowercase,
digits and underscore, mandatory two-character suffix `_x`, nonempty
stem.  (For the ASCII-only strings these identifiers admit, byte length
and character count coincide.) -/
def validateIdent (suffixLetter : Char) (value : List Char) : Except IdentError Unit :=
  if value = [] then .error .Empty
  else if value.length > 255 then .error (.TooLong value.length)
  else if value.length < 3 then .error .InvalidStem
  else
    match value.find? (fun ch => !(ch.isLower || ch.isDigit || ch = '_')) with
    | some ch => .error (.InvalidCharacter ch)
    | none =>
      if !(List.isSuffixOf ['_', suffixLetter] value) then .error .InvalidSuffix
      else if value.take (value.length - 2) = [] then .error .InvalidStem
      else .ok ()

/-- `SelinuxUser`: validated string newtype. -/
structure SelinuxUser where
  chars : List Char
deriving DecidableEq

/-- `SelinuxRole`: validated string newtype. -/
structure SelinuxRole where
  chars : List Char
deriving DecidableEq

/-- `SelinuxType`: validated string newtype. -/
structure SelinuxType where
  chars : List Char
deriving DecidableEq

/-- `SelinuxUser::from_str` (validation then wrap). -/
def SelinuxUser.fromStr (s : List Char) : Except IdentError SelinuxUser :=
  (validateIdent 'u' s).map fun _ => ⟨s⟩

/-- `SelinuxRole::from_str`. -/
def SelinuxRole.fromStr (s : List Char) : Except IdentError SelinuxRole :=
  (validateIdent 'r' s).map fun _ => ⟨s⟩

/-- `SelinuxType::from_str`. -/
def SelinuxType.fromStr (s : List Char) : Except IdentError SelinuxType :=
  (validateIdent 't' s).map fun _ => ⟨s⟩

/-! ## MCS category-string parsing (umrs-selinux/src/xattrs.rs) -/

/-- `parse_cat_id`: strip a mandatory `c`, parse the rest as `u16`;
failure is the `InvalidData` io error. -/
def parse_cat_id (s : List Char) : Except IoErr Nat :=
  match s with
  | 'c' :: num =>
    match rustParseU16 num with
    | some n => .ok n
    | none => .error .InvalidData
  | _ => .error .InvalidData

/-- The `for i in start..=end` body of `parse_mcs_categories`: insert
categories `i, i+1, ...` for `fuel` steps, failing with `InvalidData`
when `Category::new` rejects an id. -/
def insertCatsFrom (s : CategorySet) (i : Nat) : Nat → Except IoErr CategorySet
  | 0 => .ok s
  | fuel + 1 =>
    match Category.new i with
    | .ok c => insertCatsFrom (s.insert c) (i + 1) fuel
    | .error _ => .error .InvalidData

/-- One comma-separated token of `parse_mcs_categories`: a dotted token
is split on every dot and processed only when that yields exactly two
pieces (otherwise the token is skipped with no effect); an undotted
token goes through `parse_cat_id` and `Category::new`. -/
def parse_mcs_part (s : CategorySet) (part : List Char) : Except IoErr CategorySet :=
  if '.' ∈ part then
    let range := splitChar '.' part
    if h : range.length = 2 then do
      let a ← parse_cat_id (range.get ⟨0, by omega⟩)
      let b ← parse_cat_id (range.get ⟨1, by omega⟩)
      insertCatsFrom s a (b + 1 - a)
    else .ok s
  else do
    let id ← parse_cat_id part
    match Category.new id with
    | .ok c => .ok (s.insert c)
    | .error _ => .error .InvalidData

/-- `parse_mcs_categories`: returns the empty set at once when the
input contains no `c` character at all; otherwise folds
`parse_mcs_part` over the comma-separated tokens. -/
def parse_mcs_categories (input : List Char) : Except IoErr CategorySet :=
  if 'c' ∉ input then .ok CategorySet.empty
  else (splitChar ',' input).foldlM parse_mcs_part CategorySet.empty

/-! ## SecurityContext and the dual-path parser
(umrs-selinux/src/context.rs, umrs-selinux/src/xattrs.rs) -/

/-- `MlsLevel`: sensitivity, categories, and the raw provenance string. -/
structure MlsLevel where
  sensitivity : SensitivityLevel
  categories : CategorySet
  raw_level : List Char
deriving DecidableEq

/-- `SecurityContext`: user, role, type and optional MLS level;
equality is structural (derived `PartialEq`). -/
structure SecurityContext where
  user : SelinuxUser
  role : SelinuxRole
  security_type : SelinuxType
  level : Option MlsLevel
deriving DecidableEq

/-- `ContextParseError` from context.rs. -/
inductive ContextParseError where
  | InvalidFormat
  | InvalidUser
  | InvalidRole
  | InvalidType
  | InvalidLevel
deriving DecidableEq

/-- The level branch shared by both paths on a colon-free level string:
a sensitivity that fails to parse defaults to `s0`
(`SensitivityLevel::new(0).unwrap()`). -/
def resolveSens (level_raw : List Char) : SensitivityLevel :=
  match SensitivityLevel.fromStr level_raw with
  | .ok v => v
  | .error _ => ⟨0⟩

/-- Path B's category resolution for the level field:
`parse_mcs_categories(level_raw).unwrap_or_else(CategorySet::new)` —
any category-parse error is discarded. -/
def resolveCats (level_raw : List Char) : CategorySet :=
  match parse_mcs_categories level_raw with
  | .ok c => c
  | .error _ => CategorySet.empty

/-- Path B, `SecurityContext::from_str` (context.rs): split the whole
string on `:`; fewer than 3 or more than 4 parts are `InvalidFormat`
(rendered here by matching on the shape of the part list rather than
by the source's length test plus indexing); for 4 parts the fourth
part is the level, with sensitivity defaulting to `s0` on parse
failure and category errors discarded via
`unwrap_or(CategorySet::new())`. -/
def SecurityContext.fromStr (s : List Char) : Except ContextParseError SecurityContext :=
  match splitChar ':' s with
  | [p0, p1, p2] => do
    let user ← (SelinuxUser.fromStr p0).mapError fun _ => ContextParseError.InvalidUser
    let role ← (SelinuxRole.fromStr p1).mapError fun _ => ContextParseError.InvalidRole
    let security_type ← (SelinuxType.fromStr p2).mapError
      fun _ => ContextParseError.InvalidType
    pure (SecurityContext.mk user role security_type none)
  | [p0, p1, p2, p3] => do
    let user ← (SelinuxUser.fromStr p0).mapError fun _ => ContextParseError.InvalidUser
    let role ← (SelinuxRole.fromStr p1).mapError fun _ => ContextParseError.InvalidRole
    let security_type ← (SelinuxType.fromStr p2).mapError
      fun _ => ContextParseError.InvalidType
    pure (SecurityContext.mk user role security_type
      (some (MlsLevel.mk (resolveSens p3) (resolveCats p3) p3)))
  | _ => .error .InvalidFormat

/-- `nom::bytes::complete::tag(":")` as used in Path A. -/
def tagColon (l : List Char) : Option (List Char) :=
  match l with
  | ':' :: rest => some rest
  | _ => none

/-- `rem.strip_prefix(":").unwrap_or(rem)` from Path A. -/
def afterColon (l : List Char) : List Char :=
  match l with
  | ':' :: rest => rest
  | _ => l

/-- Path A, `parse_context_nom` (xattrs.rs): delimiter-seeking
combinators for `user:role:type`, then a greedy decomposition of the
remainder into the level; the level is processed (with the `s0`
default and with category-parse failure aborting the whole path)
before the user/role/type fields are validated, exactly as in the
source. -/
def parse_context_nom (input : List Char) : Option SecurityContext := do
  let (user_raw, r1) ← takeUntil ':' input
  let r1 ← tagColon r1
  let (role_raw, r2) ← takeUntil ':' r1
  let r2 ← tagColon r2
  let (type_raw, remaining) :=
    match takeUntil ':' r2 with
    | some (t, rem) => (t, afterColon rem)
    | none => (r2, ([] : List Char))
  let level ←
    if remaining ≠ [] then
      let (sens_raw, cats_str) :=
        match splitOnce ':' remaining with
        | some p => p
        | none => (remaining, [])
      let sens := resolveSens sens_raw
      match (if cats_str ≠ [] then (parse_mcs_categories cats_str).toOption
             else some CategorySet.empty) with
      | none => none
      | some cats => some (some (MlsLevel.mk sens cats remaining))
    else some none
  let user ← (SelinuxUser.fromStr user_raw).toOption
  let role ← (SelinuxRole.fromStr role_raw).toOption
  let security_type ← (SelinuxType.fromStr type_raw).toOption
  some (SecurityContext.mk user role security_type level)

/-- `SecureXattrReader::read_context`, from the decoded attribute
string onward: Path A first (failure is `InvalidData`), then Path B
(failure is `InvalidData`), then the TPI gate comparing the two
contexts for structural equality — disagreement is
`PermissionDenied`, agreement releases Path A's context. -/
def read_context_str (s : List Char) : Except IoErr SecurityContext :=
  match parse_context_nom s with
  | none => .error .InvalidData
  | some context_a =>
    match SecurityContext.fromStr s with
    | .error _ => .error .InvalidData
    | .ok context_b =>
      if context_a ≠ context_b then .error .PermissionDenied
      else .ok context_a

instance {ε α : Type} [DecidableEq ε] [DecidableEq α] : DecidableEq (Except ε α) := fun a b =>
  match a, b with
  | .ok x, .ok y => decidable_of_iff (x = y) (by simp)
  | .error x, .error y => decidable_of_iff (x = y) (by simp)
  | .ok _, .error _ => isFalse (by simp)
  | .error _, .ok _ => isFalse (by simp)

/-! ## mcs-setrans (components/rusty-gadgets/mcs-setrans/src/lib.rs) -/

/-- The error strings produced by the strict mcs-setrans parser,
rendered as distinct constructors.  `UppercaseS` models the dedicated
"Uppercase S is invalid, did you mean s..." syntax error, distinct from
`NotLowerS`, the generic "must start with s" error; `UppercaseC` models
the dedicated uppercase-category error; `BadStart`/`BadEnd` are the
range-endpoint parse failures; `CatError` covers the stringified
`CategoryError` of `Category::from_str`. -/
inductive SetransErr where
  | UppercaseS (stripped : List Char)
  | NotLowerS (found : List Char)
  | BadSensFormat (found : List Char)
  | UppercaseC (part : List Char)
  | BadStart
  | BadEnd
  | CatError
deriving DecidableEq

/-- mcs-setrans `SecurityLevel`: a `u32` sensitivity plus a category
bitmap. -/
structure SecurityLevel where
  sensitivity : Nat
  categories : CategorySet
deriving DecidableEq

/-- mcs-setrans `SecurityRange`. -/
structure SecurityRange where
  low : SecurityLevel
  high : SecurityLevel
deriving DecidableEq

/-- `SecurityLevel::dominates`: sensitivity at least as high, and every
category of `other` (queried through `iter`) contained in `self`. -/
def SecurityLevel.dominates (self other : SecurityLevel) : Bool :=
  if self.sensitivity < other.sensitivity then false
  else other.categories.iterList.all fun c => self.categories.containsCat c

/-- `SecurityRange::can_read`: compares only the low bounds. -/
def SecurityRange.can_read (self file_range : SecurityRange) : Bool :=
  self.low.dominates file_range.low

/-- The `for i in start..=end` body of the mcs-setrans category-range
expansion: each id is rendered as `c{i}` and re-parsed by
`Category::from_str`, whose failure (out of range, or too wide for
`u16`) aborts the level parse. -/
def setransInsertRange (s : CategorySet) (i : Nat) : Nat → Except SetransErr CategorySet
  | 0 => .ok s
  | fuel + 1 =>
    match Category.new i with
    | .ok c => setransInsertRange (s.insert c) (i + 1) fuel
    | .error _ => .error .CatError

/-- One comma-separated category token of mcs-setrans
`SecurityLevel::from_str`: trims, rejects uppercase `C` loudly, then
either expands a dotted range (`split_once('.')`, so only the first dot
splits) or parses a single category; an empty token is skipped.  The
source also threads a purely debug-logging style auditor over the
token ids, which has no effect on the result and is omitted here. -/
def setransCatPart (s : CategorySet) (part : List Char) : Except SetransErr CategorySet :=
  let part := rustTrim part
  if 'C' ∈ part then .error (.UppercaseC part)
  else
    match splitOnce '.' part with
    | some (start_str, end_str) =>
      match rustParseU32 (start_str.dropWhile (fun ch => ch = 'c')) with
      | none => .error .BadStart
      | some a =>
        match rustParseU32 (end_str.dropWhile (fun ch => ch = 'c')) with
        | none => .error .BadEnd
        | some b => setransInsertRange s a (b + 1 - a)
    | none =>
      if part ≠ [] then
        match Category.fromStr part with
        | .ok c => .ok (s.insert c)
        | .error _ => .error .CatError
      else .ok s

/-- mcs-setrans `SecurityLevel::from_str`: trim; split off an optional
`:`-separated category section; reject a leading uppercase `S` with the
dedicated error; require a leading lowercase `s`; parse the sensitivity
as `u32` after stripping every leading `s`
(`trim_start_matches('s')`); then fold the category tokens. -/
def SecurityLevel.fromStr (input : List Char) : Except SetransErr SecurityLevel :=
  let s := rustTrim input
  let (sens_part, cat_part) :=
    match splitOnce ':' s with
    | some (a, b) => (a, some b)
    | none => (s, (none : Option (List Char)))
  match sens_part with
  | 'S' :: stripped => .error (.UppercaseS stripped)
  | _ =>
    if sens_part.head? ≠ some 's' then .error (.NotLowerS sens_part)
    else
      match rustParseU32 (sens_part.dropWhile (fun ch => ch = 's')) with
      | none => .error (.BadSensFormat sens_part)
      | some sensitivity => do
        let categories ←
          match cat_part with
          | none => .ok CategorySet.empty
          | some c_str => (splitChar ',' c_str).foldlM setransCatPart CategorySet.empty
        .ok (SecurityLevel.mk sensitivity categories)

/-- mcs-setrans `SecurityRange::from_str`: trim; split once on `-` into
low and high, or duplicate the single level into both bounds. -/
def SecurityRange.fromStr (input : List Char) : Except SetransErr SecurityRange :=
  let s := rustTrim input
  match splitOnce '-' s with
  | some (low_s, high_s) => do
    let low ← SecurityLevel.fromStr low_s
    let high ← SecurityLevel.fromStr high_s
    .ok (SecurityRange.mk low high)
  | none => do
    let level ← SecurityLevel.fromStr s
    .ok (SecurityRange.mk level level)

/-! ## Association-list model of `BTreeMap` -/

/-- `BTreeMap::get` on an association list. -/
def mapGet {κ α : Type} [DecidableEq κ] : List (κ × α) → κ → Option α
  | [], _ => none
  | (k2, v) :: rest, k => if k2 = k then some v else mapGet rest k

/-- `BTreeMap::insert` on an association list: replaces the value at an
existing key, otherwise appends. -/
def mapInsert {κ α : Type} [DecidableEq κ] : List (κ × α) → κ → α → List (κ × α)
  | [], k, v => [(k, v)]
  | (k2, v2) :: rest, k, v =>
    if k2 = k then (k, v) :: rest else (k2, v2) :: mapInsert rest k v

/-- mcs-setrans `Translator`: the rule map and the sidecar detail map,
both keyed by `SecurityRange`. -/
structure Translator where
  rules : List (SecurityRange × List Char)
  details : List (SecurityRange × List Char)

/-- `Translator::new`. -/
def Translator.empty : Translator := ⟨[], []⟩

/-- `Translator::add_rule`: the detail is stored only when nonempty. -/
def Translator.add_rule (tr : Translator) (range : SecurityRange)
    (label detail : List Char) : Translator :=
  { rules := mapInsert tr.rules range label
    details := if detail ≠ [] then mapInsert tr.details range detail else tr.details }

/-- `Translator::lookup`. -/
def Translator.lookup (tr : Translator) (range : SecurityRange) : Option (List Char) :=
  mapGet tr.rules range

/-- `Translator::get_detail`. -/
def Translator.get_detail (tr : Translator) (range : SecurityRange) : List Char :=
  (mapGet tr.details range).getD []

/-- One line of `load_setrans_file`: trim; skip blank and `#` lines and
lines without `=`; split label and detail on the first `#`; parse the
range; on a syntax error skip the line with a warning; on a duplicate
range key skip the line (first definition wins); otherwise
`add_rule`. -/
def processSetransLine (tr : Translator) (rawLine : List Char) : Translator :=
  let line := rustTrim rawLine
  if line = [] ∨ line.head? = some '#' then tr
  else
    match splitOnce '=' line with
    | none => tr
    | some (raw_range0, rest) =>
      let raw_range := rustTrim raw_range0
      let (label, comment) :=
        match splitOnce '#' rest with
        | some (l, c) => (rustTrim l, rustTrim c)
        | none => (rustTrim rest, [])
      match SecurityRange.fromStr raw_range with
      | .ok range =>
        match mapGet tr.rules range with
        | some _ => tr
        | none => tr.add_rule range label comment
      | .error _ => tr

/-- `load_setrans_file`, line-iteration part: fold the per-line
processing over the configuration lines, starting from the current
global translator state. -/
def load_setrans_lines (lines : List (List Char)) (tr : Translator) : Translator :=
  lines.foldl processSetransLine tr

/-! ## TranslationTable (umrs-selinux/src/mcs/setrans.rs) -/

/-- Bitmask-indexed `TranslationTable`: `to_text` keyed by the
normalized `CategorySet`, `to_bits` keyed by the marking text. -/
structure TranslationTable where
  to_text : List (CategorySet × List Char)
  to_bits : List (List Char × CategorySet)

/-- `TranslationTable::new`. -/
def TranslationTable.empty : TranslationTable := ⟨[], []⟩

/-- `TranslationTable::get_text`. -/
def TranslationTable.get_text (t : TranslationTable) (set : CategorySet) : Option (List Char) :=
  mapGet t.to_text set

/-- `TranslationTable::get_bits`. -/
def TranslationTable.get_bits (t : TranslationTable) (text : List Char) : Option CategorySet :=
  mapGet t.to_bits text

/-- Path A of the setrans line ingester, `parse_line_nom`:
`separated_pair(take_until("="), tag("="), rest)`, with both sides
trimmed. -/
def parse_line_nom (input : List Char) : Option (List Char × List Char) :=
  match takeUntil '=' input with
  | some (lhs, _ :: rest) => some (rustTrim lhs, rustTrim rest)
  | _ => none

/-- One line of `TranslationTable::load_from_reader`: skip blank and
`#`-prefixed lines; strip a trailing comment
(`split('#').next()`); run Path A (`parse_line_nom`) and Path B
(`split_once('=')` with trims); any disagreement is the
`PermissionDenied` TPI failure; then resolve the category portion after
the first `:` through `parse_mcs_categories` and insert into both maps
(`BTreeMap::insert`, which replaces an existing key). -/
def processTTLine (t : TranslationTable) (rawLine : List Char) : Except IoErr TranslationTable :=
  let trimmed := rustTrim rawLine
  if trimmed = [] ∨ trimmed.head? = some '#' then .ok t
  else
    let data := rustTrim ((splitChar '#' trimmed).headD [])
    if data = [] then .ok t
    else do
      let pa ← match parse_line_nom data with
        | some p => Except.ok p
        | none => Except.error IoErr.InvalidData
      let pb ← match splitOnce '=' data with
        | some (a, b) => Except.ok (rustTrim a, rustTrim b)
        | none => Except.error IoErr.InvalidData
      if pa.1 ≠ pb.1 ∨ pa.2 ≠ pb.2 then .error .PermissionDenied
      else
        let (_sens_str, cats_str) :=
          match splitOnce ':' pa.1 with
          | some p => p
          | none => (pa.1, [])
        let cats ←
          if cats_str ≠ [] then parse_mcs_categories cats_str
          else .ok CategorySet.empty
        .ok (TranslationTable.mk (mapInsert t.to_text cats pa.2) (mapInsert t.to_bits pa.2 cats))

/-- `TranslationTable::load_from_reader`: fold the per-line ingestion
over the lines, aborting the whole load at the first error. -/
def load_from_reader (t : TranslationTable) (lines : List (List Char)) :
    Except IoErr TranslationTable :=
  lines.foldlM processTTLine t

/-! ## SecureReader (utils/good_kattrs.rs and kernel-files/src/lib.rs) -/

/-- `nix::sys::statfs::SELINUX_MAGIC`. -/
def SELINUX_MAGIC : Nat := 0xf97cff8c

/-- `nix::sys::statfs::PROC_SUPER_MAGIC`. -/
def PROC_SUPER_MAGIC : Nat := 0x9fa0

/-- `EnforceState`. -/
inductive EnforceState where
  | Permissive
  | Enforcing
deriving DecidableEq

/-- `SelinuxEnforce::parse`: the first byte must be ASCII `1`
(enforcing) or `0` (permissive). -/
def selinuxEnforceParse (data : List Nat) : Except IoErr EnforceState :=
  match data.head? with
  | some 49 => .ok .Enforcing
  | some 48 => .ok .Permissive
  | _ => .error .InvalidData

/-- `SecureReader::execute_read`, with the environment made explicit:
`statfsRes` is the result of `statfs` on the path (its magic number on
success, its error mapped to an io error otherwise), and `openRes` is
the result of opening and reading the file.  The magic comparison is
performed first; a mismatch is the `PermissionDenied` provenance
failure and nothing is read or parsed.  At most 16 bytes reach the
parser. -/
def execute_read {α : Type} (parse : List Nat → Except IoErr α)
    (statfsRes : Except IoErr Nat) (expected_magic : Nat)
    (openRes : Except IoErr (List Nat)) : Except IoErr α := do
  let magic ← statfsRes
  if magic ≠ expected_magic then .error .PermissionDenied
  else do
    let content ← openRes
    parse (content.take 16)

/-! ## Concrete values used in the theorem statements below -/

/-- A category literal. -/
def catLit (n : Nat) (h : n < 1024) : Category := Fin.mk n h

/-- The set containing exactly `c1`. -/
def catsC1 : CategorySet := CategorySet.empty.insert (catLit 1 (by norm_num))

/-- The set containing exactly `c90` and `c91`. -/
def catsNinety : CategorySet :=
  (CategorySet.empty.insert (catLit 90 (by norm_num))).insert (catLit 91 (by norm_num))

/-- The set containing exactly `c0` and `c3`. -/
def catsZeroThree : CategorySet :=
  (CategorySet.empty.insert (catLit 0 (by norm_num))).insert (catLit 3 (by norm_num))

/-- The set containing exactly `c0` through `c5`. -/
def catsZeroFive : CategorySet :=
  (List.range 6).foldl
    (fun s n => if h : n < 1024 then s.insert (catLit n h) else s) CategorySet.empty

/-- The parsed context `system_u:system_r:sshd_t` (no level). -/
def ctxSshd : SecurityContext :=
  SecurityContext.mk ⟨"system_u".toList⟩ ⟨"system_r".toList⟩ ⟨"sshd_t".toList⟩ none

/-- The parsed context `system_u:system_r:sshd_t:s0`. -/
def ctxSshdS0 : SecurityContext :=
  SecurityContext.mk ⟨"system_u".toList⟩ ⟨"system_r".toList⟩ ⟨"sshd_t".toList⟩
    (some (MlsLevel.mk ⟨0⟩ CategorySet.empty ("s0".toList)))

/-- Path A's reading of `system_u:system_r:sshd_t:c1`: default `s0`,
empty categories (Path A never consults the categories of a colon-free
level field). -/
def ctxSshdC1A : SecurityContext :=
  SecurityContext.mk ⟨"system_u".toList⟩ ⟨"system_r".toList⟩ ⟨"sshd_t".toList⟩
    (some (MlsLevel.mk ⟨0⟩ CategorySet.empty ("c1".toList)))

/-- Path B's reading of `system_u:system_r:sshd_t:c1`: default `s0`,
categories `{c1}`. -/
def ctxSshdC1B : SecurityContext :=
  SecurityContext.mk ⟨"system_u".toList⟩ ⟨"system_r".toList⟩ ⟨"sshd_t".toList⟩
    (some (MlsLevel.mk ⟨0⟩ catsC1 ("c1".toList)))

/-- The range `s0:c1` (single level, low = high). -/
def rangeS0C1 : SecurityRange :=
  SecurityRange.mk (SecurityLevel.mk 0 catsC1) (SecurityLevel.mk 0 catsC1)

/-- A translator already holding `s0:c1 -> ALPHA`. -/
def demoTranslator : Translator :=
  Translator.empty.add_rule rangeS0C1 ("ALPHA".toList) []

/-- The set `{c90, c91}` built in the opposite insertion order. -/
def catsNinetyRev : CategorySet :=
  (CategorySet.empty.insert (catLit 91 (by norm_num))).insert (catLit 90 (by norm_num))

/-- The bitmask table obtained by ingesting the single line
`s0:c90,c91 = LEI`. -/
def demoTable : TranslationTable :=
  match load_from_reader TranslationTable.empty [("s0:c90,c91 = LEI".toList)] with
  | .ok t => t
  | .error _ => TranslationTable.empty

/-! ## Helper lemmas -/

theorem and_shift_ne_zero (x j : Nat) : (x &&& (1 <<< j) ≠ 0) ↔ x.testBit j = true := by
  rw [Nat.shiftLeft_eq, one_mul, Nat.and_two_pow]
  cases h : x.testBit j <;> simp [h]

theorem containsCat_iff_testBit (s : CategorySet) (c : Category) :
    s.containsCat c = true ↔ (s.bits (catWord c)).testBit (catBit c) = true := by
  unfold CategorySet.containsCat
  rw [decide_eq_true_iff]
  exact and_shift_ne_zero _ _

theorem dominates_iff_words (a b : CategorySet) :
    a.dominates b = true ↔ ∀ i : Fin 16, a.bits i &&& b.bits i = b.bits i := by
  unfold CategorySet.dominates
  rw [List.all_eq_true]
  constructor
  · intro h i; exact of_decide_eq_true (h i (List.mem_finRange i))
  · intro h i _; exact decide_eq_true (h i)

theorem dominates_iff_superset (a b : CategorySet) :
    a.dominates b = true ↔
      ∀ c : Category, b.containsCat c = true → a.containsCat c = true := by
  rw [dominates_iff_words]
  constructor
  · intro h c hc
    rw [containsCat_iff_testBit] at hc ⊢
    have hw := congrArg (fun x => Nat.testBit x (catBit c)) (h (catWord c))
    simp only [Nat.testBit_and] at hw
    rw [hc, Bool.and_true] at hw
    exact hw
  · intro h i
    apply Nat.eq_of_testBit_eq
    intro j
    rw [Nat.testBit_and]
    by_cases hb : (b.bits i).testBit j = true
    · have hj : j < 64 := by
        by_contra hj2
        have hlt : b.bits i < 2 ^ j :=
          lt_of_lt_of_le (b.wf i) (Nat.pow_le_pow_right (by norm_num) (Nat.le_of_not_lt hj2))
        rw [Nat.testBit_eq_false_of_lt hlt] at hb
        exact Bool.noConfusion hb
    -- the category whose bit this is
      have hcval : 64 * (i : Nat) + j < 1024 := by have := i.isLt; omega
      have hword : catWord (Fin.mk (64 * (i : Nat) + j) hcval) = i := by
        apply Fin.ext
        show (64 * (i : Nat) + j) / 64 = (i : Nat)
        omega
      have hbit : catBit (Fin.mk (64 * (i : Nat) + j) hcval) = j := by
        show (64 * (i : Nat) + j) % 64 = j
        omega
      have hbc : b.containsCat (Fin.mk (64 * (i : Nat) + j) hcval) = true := by
        rw [containsCat_iff_testBit, hword, hbit]; exact hb
      have hac := h _ hbc
      rw [containsCat_iff_testBit, hword, hbit] at hac
      rw [hac, hb]
      rfl
    · rw [Bool.not_eq_true] at hb
      rw [hb, Bool.and_false]

theorem iterList_all_iff (s : CategorySet) (p : Category → Bool) :
    (s.iterList.all p = true) ↔ ∀ c : Category, s.containsCat c = true → p c = true := by
  unfold CategorySet.iterList
  rw [List.all_eq_true]
  constructor
  · intro h c hc; exact h c (List.mem_filter.mpr ⟨List.mem_finRange c, hc⟩)
  · intro h c hc; exact h c (List.mem_filter.mp hc).2

/-! ## Claim theorems -/

/-- C3: for all `CategorySet` values A and B, `A.dominates(B)` is true
exactly when every category contained in B is also contained in A, and
equivalently exactly when `(A & B) == B` word-wise over all 16 bitmap
words. -/
theorem dominates_correct :
    ∀ A B : CategorySet,
      (A.dominates B = true ↔
        ∀ c : Category, B.containsCat c = true → A.containsCat c = true) ∧
      (A.dominates B = true ↔ ∀ i : Fin 16, A.bits i &&& B.bits i = B.bits i) :=
  fun A B => ⟨dominates_iff_superset A B, dominates_iff_words A B⟩

/-- C4: `subject.can_read(object)` holds exactly when `subject.low`
dominates `object.low`, i.e. when `object.low`'s sensitivity does not
exceed `subject.low`'s and `subject.low`'s category set is a superset
of `object.low`'s; the high bounds of both ranges play no role. -/
theorem can_read_low_dominance :
    ∀ subject object : SecurityRange,
      (subject.can_read object = true ↔
        (object.low.sensitivity ≤ subject.low.sensitivity ∧
          ∀ c : Category, object.low.categories.containsCat c = true →
            subject.low.categories.containsCat c = true)) ∧
      (∀ h1 h2 : SecurityLevel,
        SecurityRange.can_read (SecurityRange.mk subject.low h1)
            (SecurityRange.mk object.low h2) =
          subject.can_read object) := by
  intro s o
  constructor
  · unfold SecurityRange.can_read SecurityLevel.dominates
    split_ifs with hs
    · constructor
      · intro h; simp at h
      · rintro ⟨h1, _⟩; omega
    · rw [iterList_all_iff]
      have hles : o.low.sensitivity ≤ s.low.sensitivity := Nat.le_of_not_lt hs
      constructor
      · intro h; exact ⟨hles, h⟩
      · rintro ⟨_, h⟩; exact h
  · intro h1 h2; rfl

/-- C6: parsing `c90,c91` and `c91,c90` yields identical
`CategorySet` values, and since the translation table is keyed by the
normalized bitmask, any table resolves the two parses to the same
label. -/
theorem category_order_invariance :
    parse_mcs_categories ("c90,c91".toList) = parse_mcs_categories ("c91,c90".toList) ∧
    ∀ (t : TranslationTable) (s1 s2 : CategorySet),
      parse_mcs_categories ("c90,c91".toList) = .ok s1 →
      parse_mcs_categories ("c91,c90".toList) = .ok s2 →
      t.get_text s1 = t.get_text s2 := by
  have e : parse_mcs_categories ("c90,c91".toList) = parse_mcs_categories ("c91,c90".toList) := by
    decide
  refine ⟨e, ?_⟩
  intro t s1 s2 h1 h2
  rw [h1, h2] at e
  injection e with e
  rw [e]

/-- C6 witness: the two orderings of `{c90, c91}` resolve to the same
marking in the table loaded from `s0:c90,c91 = LEI`. -/
theorem category_order_invariance_witness :
    demoTable.get_text catsNinety = demoTable.get_text catsNinetyRev :=
  category_order_invariance.2 demoTable catsNinety catsNinetyRev (by decide) (by decide)

/-- C7: whenever the filesystem magic returned by `statfs` differs from
the expected magic, `SecureReader::execute_read` returns the
`PermissionDenied` provenance failure, never parsed content, whatever
the file's bytes would have parsed to. -/
theorem secure_reader_magic_mismatch :
    ∀ {α : Type} (parse : List Nat → Except IoErr α) (magic expected : Nat)
      (openRes : Except IoErr (List Nat)),
      magic ≠ expected →
      execute_read parse (.ok magic) expected openRes = .error .PermissionDenied := by
  intro α parse magic expected openRes h
  show (if magic ≠ expected then Except.error IoErr.PermissionDenied
        else do
          let content ← openRes
          parse (content.take 16)) = Except.error IoErr.PermissionDenied
  rw [if_pos h]

/-- C7 witness: a well-formed `enforce` payload (`"1"`) behind the
wrong filesystem magic is rejected with `PermissionDenied` even though
its content parses. -/
theorem secure_reader_magic_mismatch_witness :
    (selinuxEnforceParse [49] = .ok .Enforcing) ∧
    execute_read selinuxEnforceParse (.ok PROC_SUPER_MAGIC) SELINUX_MAGIC (.ok [49]) =
      .error .PermissionDenied :=
  ⟨by decide,
   secure_reader_magic_mismatch selinuxEnforceParse PROC_SUPER_MAGIC SELINUX_MAGIC
     (.ok [49]) (by decide)⟩

/-- C8 counterexample: the malformed token `c0.c1.c2` (a dotted token
that is not of the form `cA.cB`) does not fail the parse — it is
silently skipped and the parse succeeds with the empty set. -/
theorem mcs_parse_malformed_token_skipped :
    parse_mcs_categories ("c0.c1.c2".toList) = .ok CategorySet.empty := by
  decide

/-- C8 (amended): `parse_mcs_categories` accepts comma-separated single
categories and two-part dotted inclusive ranges, and a malformed token
that reaches `parse_cat_id` fails with `InvalidData`; but a dotted
token that does not split into exactly two pieces is silently skipped,
and an input containing no `c` character at all yields the empty set
without any error; `CategorySet::from_str` supports only comma-separated
singles, failing with `InvalidFormat` on a dotted range. -/
theorem mcs_parse_behaviour :
    parse_mcs_categories ("c0,c3,c1.c5".toList) = .ok catsZeroFive ∧
    parse_mcs_categories ("c0,cx".toList) = .error .InvalidData ∧
    parse_mcs_categories ("c2.c1.c0".toList) = .ok CategorySet.empty ∧
    parse_mcs_categories ("x9".toList) = .ok CategorySet.empty ∧
    CategorySet.fromStr ("c1.c5".toList) = .error (.InvalidFormat ("c1.c5".toList)) ∧
    CategorySet.fromStr ("c0,c3".toList) = .ok catsZeroThree := by
  refine ⟨by decide, by decide, by decide, by decide, by decide, by decide⟩

/-- C9 counterexample: `SensitivityLevel::from_str` answers the
uppercase input `S0` with exactly the same generic
bad-leading-character error it gives any other bad first character
(here `x0`), not a distinct uppercase-rejecting error. -/
theorem sensitivity_uppercase_generic_error :
    SensitivityLevel.fromStr ("S0".toList) = .error .InvalidPrefixChar ∧
    SensitivityLevel.fromStr ("x0".toList) = .error .InvalidPrefixChar := by
  decide

/-- C9 (amended): `SensitivityLevel::from_str` succeeds only for a
lowercase `s` followed by a `u16` numeral within the policy bound; an
uppercase `S` input is rejected, without normalization, but with the
generic bad-leading-character error rather than a distinct one; the
distinct, explicitly uppercase-rejecting error lives in the mcs-setrans
`SecurityLevel::from_str`. -/
theorem sensitivity_from_str_strict :
    (∀ (s : List Char) (v : SensitivityLevel),
      SensitivityLevel.fromStr s = .ok v →
        ∃ rest, s = 's' :: rest ∧ rustParseU16 rest = some v.val ∧
          v.val ≤ MAX_SENSITIVITY) ∧
    SensitivityLevel.fromStr ("S0".toList) = .error .InvalidPrefixChar ∧
    SecurityLevel.fromStr ("S0".toList) = .error (.UppercaseS ("0".toList)) := by
  refine ⟨?_, by decide, by decide⟩
  intro s v h
  unfold SensitivityLevel.fromStr at h
  cases s with
  | nil => exact absurd h (by simp)
  | cons c rest =>
    dsimp only at h
    by_cases hc : c = 's'
    · subst hc
      rw [if_neg (by simp)] at h
      cases hp : rustParseU16 rest with
      | none => rw [hp] at h; exact absurd h (by simp)
      | some n =>
        rw [hp] at h
        unfold SensitivityLevel.new at h
        dsimp only at h
        by_cases hn : n > MAX_SENSITIVITY
        · rw [if_pos hn] at h; exact absurd h (by simp)
        · rw [if_neg hn] at h
          injection h with h
          refine ⟨rest, rfl, ?_, ?_⟩
          · rw [← h]; exact hp
          · rw [← h]; exact Nat.le_of_not_lt hn
    · rw [if_pos hc] at h; exact absurd h (by simp)

/-- C9 witness: the soundness direction applied at `s3`. -/
theorem sensitivity_from_str_strict_witness :
    ∃ rest, ("s3".toList) = 's' :: rest ∧
      rustParseU16 rest = some (SensitivityLevel.mk 3).val ∧
      (SensitivityLevel.mk 3).val ≤ MAX_SENSITIVITY :=
  sensitivity_from_str_strict.1 ("s3".toList) (SensitivityLevel.mk 3) (by decide)

theorem mapGet_insert_ne {κ α : Type} [DecidableEq κ] (m : List (κ × α)) (k k2 : κ)
    (v : α) (h : ¬ k = k2) : mapGet (mapInsert m k v) k2 = mapGet m k2 := by
  induction m with
  | nil => simp [mapInsert, mapGet, h]
  | cons p rest ih =>
    obtain ⟨k3, v3⟩ := p
    by_cases h3 : k3 = k
    · subst h3
      simp [mapInsert, mapGet, h]
    · simp [mapInsert, mapGet, h3, ih]

theorem processSetransLine_preserves (tr : Translator) (line : List Char)
    (r : SecurityRange) (v : List Char) (h : mapGet tr.rules r = some v) :
    mapGet (processSetransLine tr line).rules r = some v := by
  unfold processSetransLine
  dsimp only
  split
  · exact h
  · split
    · exact h
    · split
      · split
        · exact h
        · rename_i range hfrom hx hnone
          have hne : ¬ range = r := by
            intro e
            rw [e, h] at hnone
            exact Option.noConfusion hnone
          show mapGet (mapInsert tr.rules range _) r = some v
          rw [mapGet_insert_ne _ _ _ _ hne]
          exact h
      · exact h

theorem load_setrans_preserves :
    ∀ (lines : List (List Char)) (tr : Translator) (r : SecurityRange) (v : List Char),
      mapGet tr.rules r = some v →
      mapGet (load_setrans_lines lines tr).rules r = some v := by
  intro lines
  induction lines with
  | nil => intro tr r v h; exact h
  | cons l rest ih =>
    intro tr r v h
    exact ih _ r v (processSetransLine_preserves tr l r v h)

/-- C5 counterexample: ingesting two lines with the same bitmask key
through `TranslationTable::load_from_reader` keeps the second label —
`BTreeMap::insert` overwrites, so the last definition wins there, not
the first. -/
theorem bitmask_loader_last_wins :
    ((load_from_reader TranslationTable.empty
        [("s0:c1 = ALPHA".toList), ("s0:c1 = BRAVO".toList)]).toOption.bind
      fun t => (parse_mcs_categories ("c1".toList)).toOption.bind
        fun cs => t.get_text cs) = some ("BRAVO".toList) ∧
    ("BRAVO".toList) ≠ ("ALPHA".toList) := by
  refine ⟨by decide, by decide⟩

/-- C5 (amended): for the range-form loader `load_setrans_file` the
first definition wins — a rule once present is never overwritten by
later lines, and a two-line configuration with a duplicate range keeps
the first label; for the bitmask-form
`TranslationTable::load_from_reader` each duplicate overwrites the
existing entry, so lookup returns the last label. -/
theorem setrans_duplicate_semantics :
    (∀ (tr : Translator) (lines : List (List Char)) (r : SecurityRange) (v : List Char),
      mapGet tr.rules r = some v →
      mapGet (load_setrans_lines lines tr).rules r = some v) ∧
    ((SecurityRange.fromStr ("s0:c1".toList)).toOption.bind
      fun r => (load_setrans_lines
        [("s0:c1 = ALPHA".toList), ("s0:c1 = BRAVO".toList)] Translator.empty).lookup r)
      = some ("ALPHA".toList) ∧
    ((load_from_reader TranslationTable.empty
        [("s0:c1 = CHARLIE".toList), ("s0:c1 = DELTA".toList)]).toOption.bind
      fun t => (parse_mcs_categories ("c1".toList)).toOption.bind
        fun cs => t.get_text cs) = some ("DELTA".toList) := by
  refine ⟨fun tr lines r v h => load_setrans_preserves lines tr r v h, by decide, by decide⟩

/-- C5 witness: a translator already holding `s0:c1 -> ALPHA` still
answers `ALPHA` after a duplicate line offering `BRAVO` is loaded. -/
theorem setrans_duplicate_semantics_witness :
    mapGet (load_setrans_lines [("s0:c1 = BRAVO".toList)] demoTranslator).rules rangeS0C1 =
      some ("ALPHA".toList) :=
  setrans_duplicate_semantics.1 demoTranslator [("s0:c1 = BRAVO".toList)] rangeS0C1
    ("ALPHA".toList) (by decide)

theorem takeUntil_none_iff (sep : Char) (l : List Char) :
    takeUntil sep l = none ↔ sep ∉ l := by
  induction l with
  | nil => simp [takeUntil]
  | cons c rest ih =>
    by_cases hc : c = sep
    · subst hc
      simp [takeUntil]
    · simp [takeUntil, hc, ih, Ne.symm hc]

theorem takeUntil_some_decomp (sep : Char) (l a b : List Char)
    (h : takeUntil sep l = some (a, b)) :
    l = a ++ b ∧ sep ∉ a ∧ b.head? = some sep := by
  induction l generalizing a b with
  | nil => exact absurd h (by simp [takeUntil])
  | cons c rest ih =>
    by_cases hc : c = sep
    · subst hc
      rw [takeUntil, if_pos rfl] at h
      injection h with h
      rw [Prod.mk.injEq] at h
      obtain ⟨ha, hb⟩ := h
      subst ha
      subst hb
      exact ⟨rfl, by simp, rfl⟩
    · rw [takeUntil, if_neg hc] at h
      cases hr : takeUntil sep rest with
      | none => rw [hr] at h; exact absurd h (by simp)
      | some p =>
        obtain ⟨a2, b2⟩ := p
        rw [hr] at h
        simp only [Option.map_some'] at h
        injection h with h
        rw [Prod.mk.injEq] at h
        obtain ⟨ha, hb⟩ := h
        obtain ⟨hl, hna, hhd⟩ := ih a2 b2 hr
        subst hb
        rw [← ha]
        refine ⟨by rw [hl]; rfl, ?_, hhd⟩
        intro hmem
        rcases List.mem_cons.mp hmem with he | he
        · exact hc he.symm
        · exact hna he

theorem splitChar_length (sep : Char) (l : List Char) :
    (splitChar sep l).length = l.count sep + 1 := by
  induction l with
  | nil => rfl
  | cons c rest ih =>
    by_cases hc : c = sep
    · subst hc
      simp [splitChar, List.count_cons, ih]
    · rw [splitChar]
      simp only [if_neg hc]
      cases hr : splitChar sep rest with
      | nil => rw [hr] at ih; simp at ih
      | cons hd tl =>
        rw [hr] at ih
        simp only [List.length_cons] at ih ⊢
        rw [List.count_cons]
        simp [hc]
        omega

theorem parse_nom_none_of_count_lt (s : List Char) (h : s.count ':' < 2) :
    parse_context_nom s = none := by
  cases hA : takeUntil ':' s with
  | none => simp [parse_context_nom, hA]
  | some p =>
    obtain ⟨a, b⟩ := p
    obtain ⟨hl, hna, hb⟩ := takeUntil_some_decomp ':' s a b hA
    cases b with
    | nil => exact absurd hb (by simp)
    | cons c0 b2 =>
      have hc0 : c0 = ':' := by simpa using hb
      subst hc0
      have hca : a.count ':' = 0 := List.count_eq_zero.mpr hna
      have hcb2 : b2.count ':' = 0 := by
        rw [hl, List.count_append, List.count_cons] at h
        simp [hca] at h
        omega
      have hB : takeUntil ':' b2 = none :=
        (takeUntil_none_iff ':' b2).mpr (List.count_eq_zero.mp hcb2)
      simp [parse_context_nom, hA, tagColon, hB]

theorem fromStr_invalid_of_len_lt (s : List Char)
    (h : (splitChar ':' s).length < 3) :
    SecurityContext.fromStr s = .error .InvalidFormat := by
  unfold SecurityContext.fromStr
  rcases hps : splitChar ':' s with _ | ⟨p0, _ | ⟨p1, _ | ⟨p2, _ | ⟨p3, rest⟩⟩⟩⟩ <;>
    rw [hps] at h <;> simp only [List.length_cons, List.length_nil] at h <;>
    first
    | rfl
    | omega

theorem fromStr_invalid_of_len_gt (s : List Char)
    (h : 4 < (splitChar ':' s).length) :
    SecurityContext.fromStr s = .error .InvalidFormat := by
  unfold SecurityContext.fromStr
  rcases hps : splitChar ':' s with _ | ⟨p0, _ | ⟨p1, _ | ⟨p2, _ | ⟨p3, _ | ⟨p4, rest⟩⟩⟩⟩⟩ <;>
    rw [hps] at h <;> simp only [List.length_cons, List.length_nil] at h <;>
    first
    | rfl
    | omega

theorem read_context_invalid_of_fromStr_err (s : List Char) (e : ContextParseError)
    (h : SecurityContext.fromStr s = .error e) :
    read_context_str s = .error .InvalidData := by
  unfold read_context_str
  cases hA : parse_context_nom s with
  | none => rfl
  | some ca => rw [h]

/-- C1 counterexample: for the context string missing a required
colon, `unconfined_u:unconfined_r`, the combined result of
`read_context` is the `InvalidData` parse error, not a
permission-denied-class error. -/
theorem missing_colon_invalid_data :
    read_context_str ("unconfined_u:unconfined_r".toList) = .error .InvalidData ∧
    IoErr.InvalidData ≠ IoErr.PermissionDenied := by
  refine ⟨by decide, by decide⟩

/-- C1 (amended): `read_context` releases a context exactly when Path A
and Path B both succeed with structurally equal values; when the two
successful parses disagree the result is the `PermissionDenied`
fail-closed error and no context; when a required field's colon is
missing (fewer than three colon-separated fields) both paths fail and
the combined result is the `InvalidData` error — never a partial
success, but not a permission-denied-class error. -/
theorem read_context_tpi_gate :
    (∀ (s : List Char) (c : SecurityContext),
      read_context_str s = .ok c ↔
        (parse_context_nom s = some c ∧ SecurityContext.fromStr s = .ok c)) ∧
    (∀ (s : List Char) (ca cb : SecurityContext),
      parse_context_nom s = some ca → SecurityContext.fromStr s = .ok cb → ca ≠ cb →
      read_context_str s = .error .PermissionDenied) ∧
    (∀ s : List Char, (splitChar ':' s).length < 3 →
      parse_context_nom s = none ∧
      SecurityContext.fromStr s = .error .InvalidFormat ∧
      read_context_str s = .error .InvalidData) := by
  refine ⟨?_, ?_, ?_⟩
  · intro s c
    unfold read_context_str
    cases hA : parse_context_nom s with
    | none => simp
    | some ca =>
      cases hB : SecurityContext.fromStr s with
      | error e => simp
      | ok cb =>
        dsimp only
        by_cases hEq : ca = cb
        · subst hEq
          rw [if_neg (by simp)]
          constructor
          · intro hx; injection hx with hx; exact ⟨by rw [hx], by rw [hx]⟩
          · rintro ⟨h1, _⟩; injection h1 with h1; rw [h1]
        · rw [if_pos hEq]
          constructor
          · intro hx; exact absurd hx (by simp)
          · rintro ⟨h1, h2⟩
            injection h1 with h1
            injection h2 with h2
            exact absurd (h1.trans h2.symm) hEq
  · intro s ca cb h1 h2 hne
    unfold read_context_str
    rw [h1, h2]
    dsimp only
    rw [if_pos hne]
  · intro s h
    have hc : s.count ':' < 2 := by
      have := splitChar_length ':' s
      omega
    have h1 := parse_nom_none_of_count_lt s hc
    have h2 := fromStr_invalid_of_len_lt s h
    refine ⟨h1, h2, ?_⟩
    unfold read_context_str
    rw [h1]

/-- C1 witness: the three parts applied at concrete inputs — agreement
on `system_u:system_r:sshd_t` releases the context, disagreement on
`system_u:system_r:sshd_t:c1` (Path A reads no categories from a
colon-free level field, Path B reads `{c1}`) yields `PermissionDenied`,
and the two-field string yields `InvalidData`. -/
theorem read_context_tpi_gate_witness :
    read_context_str ("system_u:system_r:sshd_t".toList) = .ok ctxSshd ∧
    read_context_str ("system_u:system_r:sshd_t:c1".toList) = .error .PermissionDenied ∧
    read_context_str ("unconfined_u:unconfined_r".toList) = .error .InvalidData :=
  ⟨(read_context_tpi_gate.1 ("system_u:system_r:sshd_t".toList) ctxSshd).mpr
      ⟨by decide, by decide⟩,
   read_context_tpi_gate.2.1 ("system_u:system_r:sshd_t:c1".toList) ctxSshdC1A ctxSshdC1B
      (by decide) (by decide) (by decide),
   (read_context_tpi_gate.2.2 ("unconfined_u:unconfined_r".toList) (by decide)).2.2⟩

/-- C2 counterexample: the well-formed five-field context
`system_u:system_r:sshd_t:s0:c1` (level with an internal colon) is
rejected: Path B's split-on-all-colons sees five parts and fails with
`InvalidFormat`, so `read_context` fails with `InvalidData` instead of
returning the parsed context. -/
theorem level_internal_colon_rejected :
    SecurityContext.fromStr ("system_u:system_r:sshd_t:s0:c1".toList) =
      .error .InvalidFormat ∧
    read_context_str ("system_u:system_r:sshd_t:s0:c1".toList) = .error .InvalidData := by
  refine ⟨by decide, by decide⟩

/-- C2 (amended): three-field contexts (no level) and exactly
four-colon-field contexts (a level without internal colons) are
supported by the dual-path parse; but Path B splits on every colon and
rejects more than four parts with `InvalidFormat`, so a level
containing internal colons (five or more colon-separated fields, e.g.
`user:role:type:s0:c1`) makes `read_context` fail with `InvalidData`;
only Path A treats the remainder after the third colon as the level
field. -/
theorem context_field_count_support :
    read_context_str ("system_u:system_r:sshd_t".toList) = .ok ctxSshd ∧
    read_context_str ("system_u:system_r:sshd_t:s0".toList) = .ok ctxSshdS0 ∧
    (∀ s : List Char, 4 < (splitChar ':' s).length →
      SecurityContext.fromStr s = .error .InvalidFormat ∧
      read_context_str s = .error .InvalidData) := by
  refine ⟨by decide, by decide, ?_⟩
  intro s h
  have h2 := fromStr_invalid_of_len_gt s h
  exact ⟨h2, read_context_invalid_of_fromStr_err s _ h2⟩

/-- C2 witness: the five-field rejection applied at
`system_u:system_r:sshd_t:s0:c1`. -/
theorem context_field_count_support_witness :
    SecurityContext.fromStr ("system_u:system_r:sshd_t:s0:c1".toList) =
      .error .InvalidFormat ∧
    read_context_str ("system_u:system_r:sshd_t:s0:c1".toList) = .error .InvalidData :=
  context_field_count_support.2.2 ("system_u:system_r:sshd_t:s0:c1".toList) (by decide)

theorem takeUntil_append (sep : Char) (a r : List Char) (h : sep ∉ a) :
    takeUntil sep (a ++ sep :: r) = some (a, sep :: r) := by
  induction a with
  | nil => simp [takeUntil]
  | cons c rest ih =>
    have hc : ¬ c = sep := fun e => h (by simp [e])
    have hrest : sep ∉ rest := fun e => h (by simp [e])
    rw [List.cons_append, takeUntil, if_neg hc, ih hrest]
    rfl

theorem takeUntil_not_mem (sep : Char) (a : List Char) (h : sep ∉ a) :
    takeUntil sep a = none :=
  (takeUntil_none_iff sep a).mpr h

theorem splitOnce_not_mem (sep : Char) (a : List Char) (h : sep ∉ a) :
    splitOnce sep a = none := by
  unfold splitOnce
  rw [takeUntil_not_mem sep a h]

theorem splitChar_append (sep : Char) (a r : List Char) (h : sep ∉ a) :
    splitChar sep (a ++ sep :: r) = a :: splitChar sep r := by
  induction a with
  | nil => simp [splitChar]
  | cons c rest ih =>
    have hc : ¬ c = sep := fun e => h (by simp [e])
    have hrest : sep ∉ rest := fun e => h (by simp [e])
    simp only [List.cons_append, splitChar, List.append_eq, if_neg hc, ih hrest]

theorem splitChar_single (sep : Char) (a : List Char) (h : sep ∉ a) :
    splitChar sep a = [a] := by
  induction a with
  | nil => rfl
  | cons c rest ih =>
    have hc : ¬ c = sep := fun e => h (by simp [e])
    have hrest : sep ∉ rest := fun e => h (by simp [e])
    simp only [splitChar, if_neg hc, ih hrest]

/-- C10 counterexample: `system_u:system_r:sshd_t:c1` has exactly four
colon-separated fields with a valid user, role and type, yet
`read_context` does not succeed: Path A assigns it an empty category
set while Path B parses `{c1}`, so the TPI gate fails with
`PermissionDenied`. -/
theorem fourth_field_not_always_accepted :
    read_context_str ("system_u:system_r:sshd_t:c1".toList) = .error .PermissionDenied := by
  decide

/-- C10 (amended): for a context of exactly four colon-separated
fields with valid user, role and type, both paths parse the fourth
field without rejecting it; Path A always resolves an empty category
set for the colon-free level field, while Path B resolves
`parse_mcs_categories` with errors discarded; `read_context` succeeds
— with the sensitivity defaulting to `s0` when the token fails to
parse, empty categories, and `raw_level` preserving the original text —
exactly when Path B's category resolution is also empty (in particular
for `...:garbage`, not only for the `SystemLow` alias); otherwise the
two paths disagree and the result is `PermissionDenied`. -/
theorem fourth_field_acceptance :
    ∀ (u r t lvl : List Char) (uu : SelinuxUser) (rr : SelinuxRole) (tt : SelinuxType),
      ':' ∉ u → ':' ∉ r → ':' ∉ t → ':' ∉ lvl → lvl ≠ [] →
      SelinuxUser.fromStr u = .ok uu →
      SelinuxRole.fromStr r = .ok rr →
      SelinuxType.fromStr t = .ok tt →
      read_context_str (u ++ ':' :: (r ++ ':' :: (t ++ ':' :: lvl))) =
        (if resolveCats lvl = CategorySet.empty
         then .ok (SecurityContext.mk uu rr tt
                (some (MlsLevel.mk (resolveSens lvl) CategorySet.empty lvl)))
         else .error .PermissionDenied) := by
  intro u r t lvl uu rr tt hu hr ht hlvl hne hfu hfr hft
  have hA : parse_context_nom (u ++ ':' :: (r ++ ':' :: (t ++ ':' :: lvl))) =
      some (SecurityContext.mk uu rr tt
        (some (MlsLevel.mk (resolveSens lvl) CategorySet.empty lvl))) := by
    simp [parse_context_nom,
      takeUntil_append ':' u (r ++ ':' :: (t ++ ':' :: lvl)) hu,
      takeUntil_append ':' r (t ++ ':' :: lvl) hr,
      takeUntil_append ':' t lvl ht,
      tagColon, afterColon, splitOnce_not_mem ':' lvl hlvl, hne,
      hfu, hfr, hft, Except.toOption]
  have hparts : splitChar ':' (u ++ ':' :: (r ++ ':' :: (t ++ ':' :: lvl))) =
      [u, r, t, lvl] := by
    rw [splitChar_append ':' u (r ++ ':' :: (t ++ ':' :: lvl)) hu,
      splitChar_append ':' r (t ++ ':' :: lvl) hr,
      splitChar_append ':' t lvl ht, splitChar_single ':' lvl hlvl]
  have hB : SecurityContext.fromStr (u ++ ':' :: (r ++ ':' :: (t ++ ':' :: lvl))) =
      .ok (SecurityContext.mk uu rr tt
        (some (MlsLevel.mk (resolveSens lvl) (resolveCats lvl) lvl))) := by
    unfold SecurityContext.fromStr
    rw [hparts]
    simp [hfu, hfr, hft, Except.mapError]
    rfl
  unfold read_context_str
  rw [hA, hB]
  dsimp only
  by_cases hc : resolveCats lvl = CategorySet.empty
  · rw [hc, if_pos rfl, if_neg (by simp)]
  · have hnec : SecurityContext.mk uu rr tt
        (some (MlsLevel.mk (resolveSens lvl) CategorySet.empty lvl)) ≠
          SecurityContext.mk uu rr tt
        (some (MlsLevel.mk (resolveSens lvl) (resolveCats lvl) lvl)) := by
      intro he
      apply hc
      have hl := congrArg SecurityContext.level he
      simp only [Option.some.injEq] at hl
      exact (congrArg MlsLevel.categories hl).symm
    rw [if_pos hnec, if_neg hc]

/-- C10 witness: applied at `system_u:system_r:sshd_t:garbage` — the
unparseable fourth field is accepted with default sensitivity `s0`,
empty categories, and the raw text preserved. -/
theorem fourth_field_acceptance_witness :
    read_context_str (("system_u".toList) ++ ':' :: (("system_r".toList) ++
        ':' :: (("sshd_t".toList) ++ ':' :: ("garbage".toList)))) =
      .ok (SecurityContext.mk ⟨"system_u".toList⟩ ⟨"system_r".toList⟩ ⟨"sshd_t".toList⟩
        (some (MlsLevel.mk ⟨0⟩ CategorySet.empty ("garbage".toList)))) := by
  have h := fourth_field_acceptance ("system_u".toList) ("system_r".toList)
    ("sshd_t".toList) ("garbage".toList) ⟨"system_u".toList⟩ ⟨"system_r".toList⟩
    ⟨"sshd_t".toList⟩ (by decide) (by decide) (by decide) (by decide) (by decide)
    (by decide) (by decide) (by decide)
  rw [h]
  decide

end Umrs
